import Mathlib

/-!
# Verification of the packed 2-bit nucleotide codec (`rust-bio`: `kmer.rs` / `vmer.rs`)

Shallow embedding of the repository's packed-sequence codec.  Machine `u8`
cells are modelled as `Nat` (every constructed cell is `< 256`; where an
operation's `u8` semantics could differ from `Nat` we take an explicit
`% 256`).  Rust panics (invalid nucleotide, slice out of bounds, failed
`assert_eq!`) are modelled by `Option`: `none` means the source diverges
with a panic at that point.  Strings are `List Char`; `&[u8]` byte slices
are `List Nat` (ASCII codes, `b'A' = 65`, `b'G' = 71`, `b'C' = 67`,
`b'T' = 84`).
-/

/-- Model of `slice::chunks(4)`: splits a list into runs of 4, the last run
may be shorter (1–3 elements); the empty list yields no chunks. -/
def chunks4 {α : Type} : List α → List (List α)
  | [] => []
  | [a] => [[a]]
  | [a, b] => [[a, b]]
  | [a, b, c] => [[a, b, c]]
  | a :: b :: c :: d :: rest => [a, b, c, d] :: chunks4 rest

/-- Contribution of one nucleotide byte at intra-chunk index `i` to the packed
cell, from the `match` in `Kmer::encode` / `Vmer::encode`:
`b'T' ↦ 2^(i*2+1) + 2^(i*2)`, `b'A' ↦ 0`, `b'G' ↦ 2^(i*2)`,
`b'C' ↦ 2^(i*2+1)`; any other byte hits `panic!` (modelled `none`). -/
def nucVal (i : Nat) (b : Nat) : Option Nat :=
  if b = 84 then some (2 ^ (i * 2 + 1) + 2 ^ (i * 2))
  else if b = 65 then some 0
  else if b = 71 then some (2 ^ (i * 2))
  else if b = 67 then some (2 ^ (i * 2 + 1))
  else none

/-- The inner `for (i, nucleotide) in chunk.iter().enumerate()` loop of
`encode`, accumulating `bit_seq` (addition is order-independent, so we sum
recursively). -/
def encodeChunkAux : Nat → List Nat → Option Nat
  | _, [] => some 0
  | i, b :: rest => do
    let v ← nucVal i b
    let s ← encodeChunkAux (i + 1) rest
    pure (v + s)

/-- One packed cell from one chunk of at most 4 nucleotide bytes. -/
def encodeChunk (chunk : List Nat) : Option Nat :=
  encodeChunkAux 0 chunk

/-- The cells pushed by `encode` for a byte slice: one cell per chunk of 4. -/
def encodeCells (byte_seq : List Nat) : Option (List Nat) :=
  (chunks4 byte_seq).mapM encodeChunk

/-- The `Kmer` struct of `kmer.rs`: declared symbol count `k` and the packed
`sequence` of `u8` cells. -/
structure Kmer where
  k : Nat
  sequence : List Nat
deriving DecidableEq

/-- `Kmer::encode`: pushes the cells of `byte_seq` onto the *existing*
`self.sequence` (the source never clears the vector first). `k` untouched. -/
def Kmer.encode (km : Kmer) (byte_seq : List Nat) : Option Kmer := do
  let cells ← encodeCells byte_seq
  pure { km with sequence := km.sequence ++ cells }

/-- `Kmer::new`: fresh `Kmer` with `k = len`, empty vector, then `encode`. -/
def Kmer.new (len : Nat) (byte_seq : List Nat) : Option Kmer :=
  Kmer.encode { k := len, sequence := [] } byte_seq

/-- `Kmer::from_literal`: `Kmer::new(s.len(), s.as_bytes())`. -/
def Kmer.from_literal (s : List Char) : Option Kmer :=
  Kmer.new s.length (s.map Char.toNat)

/-- The `match rem` arm of `decode`: `3 ↦ 'T'`, `0 ↦ 'A'`, `1 ↦ 'G'`,
`2 ↦ 'C'`.  `rem` is always `_ % 4 < 4`, so the source's `panic!` arm is
unreachable; the final branch here is the `rem = 2` case. -/
def remChar (rem : Nat) : Char :=
  if rem = 3 then 'T' else if rem = 0 then 'A' else if rem = 1 then 'G' else 'C'

/-- The inner `for _j in 0..4` loop of `Kmer::decode` over one cell:
takes `div`, the running `counter`, the declared length `k` and the number
`j` of remaining iterations; pushes `remChar (div % 4)`, increments the
counter, and `break`s (inner loop only!) once `counter >= k`.  Returns the
pushed characters and the final counter. -/
def decodeCellLoop : Nat → Nat → Nat → Nat → List Char × Nat
  | _, counter, _, 0 => ([], counter)
  | div, counter, k, j + 1 =>
    let c := remChar (div % 4)
    if counter + 1 ≥ k then ([c], counter + 1)
    else
      let r := decodeCellLoop (div / 4) (counter + 1) k j
      (c :: r.1, r.2)

/-- The outer `for mer in self.sequence.iter()` loop of `Kmer::decode`.
Note the source's `break` only leaves the inner loop, so every cell after
the counter reaches `k` still contributes one character. -/
def decodeCells : List Nat → Nat → Nat → List Char
  | [], _, _ => []
  | mer :: rest, counter, k =>
    let r := decodeCellLoop mer counter k 4
    r.1 ++ decodeCells rest r.2 k

/-- `Kmer::decode`, producing the string as a `List Char`. -/
def Kmer.decode (km : Kmer) : List Char :=
  decodeCells km.sequence 0 km.k

/-- Bitwise NOT on a `u8` cell: `!x = 255 - x` for bytes. -/
def notU8 (x : Nat) : Nat := 255 - x % 256

/-- `Kmer::complement` (the in-place mutator): maps `!` over the cells;
modelled as returning the updated struct. -/
def Kmer.complement (km : Kmer) : Kmer :=
  { km with sequence := km.sequence.map notU8 }

/-- `impl Not for Kmer`: a fresh `Kmer` with every cell negated, same `k`. -/
def Kmer.not (km : Kmer) : Kmer :=
  { k := km.k, sequence := km.sequence.map notU8 }

/-- `Kmer::make_complement`: `!Kmer::new(self.k, self.decode().as_bytes())`. -/
def Kmer.make_complement (km : Kmer) : Option Kmer := do
  let complement ← Kmer.new km.k (km.decode.map Char.toNat)
  pure complement.not

/-- `Kmer::make_reverse_complement`:
`!Kmer::from_literal(self.decode().chars().rev())`. -/
def Kmer.make_reverse_complement (km : Kmer) : Option Kmer := do
  let reverse := km.decode.reverse
  let kmer ← Kmer.from_literal reverse
  pure kmer.not

/-- `Kmer::reverse_complement` (the in-place mutator): re-`encode`s the
reversed decoded string — which *appends* to the existing cells — then
complements in place. -/
def Kmer.reverse_complement (km : Kmer) : Option Kmer := do
  let reverse := km.decode.reverse
  let km2 ← km.encode (reverse.map Char.toNat)
  pure km2.complement

/-- `Kmer::index`: panics (`none`) when `self.k < position`; otherwise reads
`self.sequence[position / 4]` (a slice access that itself panics when out of
bounds) and extracts the 2-bit field at `2 * (position % 4)`. -/
def Kmer.index (km : Kmer) (position : Nat) : Option Nat :=
  if km.k < position then none
  else
    match km.sequence.get? (position / 4) with
    | none => none
    | some cell =>
      let shift := 2 * (position % 4)
      some ((cell &&& (3 <<< shift)) >>> shift)

/-- The `KmerIter` struct. -/
structure KmerIter where
  kmer : Kmer
  position : Nat
  nucleotide : Nat
deriving DecidableEq

/-- `Iterator::next` for `KmerIter`: the outer `Option` is panic inside
`index`; the inner `Option` is the iterator's `Option<u8>` result. -/
def KmerIter.next (it : KmerIter) : Option (Option Nat × KmerIter) :=
  if it.position = it.kmer.k then some (none, it)
  else
    match it.kmer.index it.position with
    | none => none
    | some nuc =>
      some (some nuc, { it with position := it.position + 1, nucleotide := nuc })

/-- `IntoIterator for Kmer`. -/
def Kmer.into_iter (km : Kmer) : KmerIter :=
  { kmer := km, position := 0, nucleotide := 0 }

/-- Harness for stating iterator properties: call `next` up to `fuel` times,
collecting the yielded items until the iterator returns `None` (like
`Iterator::collect` with a step bound). -/
def iterCollect : KmerIter → Nat → Option (List Nat × KmerIter)
  | it, 0 => some ([], it)
  | it, fuel + 1 =>
    match it.next with
    | none => none
    | some (none, it2) => some ([], it2)
    | some (some x, it2) =>
      match iterCollect it2 fuel with
      | none => none
      | some (xs, it3) => some (x :: xs, it3)

/-- The `for (i, mer) in self.sequence.iter().enumerate()` loop of the
`BitXor` impls: `rhs[i]` is a panicking slice access (`none` when out of
bounds). -/
def xorCells : List Nat → Nat → List Nat → Option (List Nat)
  | [], _, _ => some []
  | m :: ms, i, rhs =>
    match rhs.get? i with
    | none => none
    | some r => (xorCells ms (i + 1) rhs).map (fun rest => (m ^^^ r) :: rest)

/-- `impl BitXor for Kmer`: `assert_eq!(self.k, rhs.k)` (panic modelled
`none`), then cell-wise xor, building the result struct directly. -/
def Kmer.bitxor (a rhs : Kmer) : Option Kmer :=
  if a.k = rhs.k then
    (xorCells a.sequence 0 rhs.sequence).map
      (fun cells => { k := a.k, sequence := cells })
  else none

/-- The `Vmer` struct of `vmer.rs` (the unindexed near-duplicate). -/
structure Vmer where
  k : Nat
  sequence : List Nat
deriving DecidableEq

/-- `Vmer::encode` — textually identical to `Kmer::encode` in the source, so
it shares `encodeCells`. -/
def Vmer.encode (vm : Vmer) (byte_seq : List Nat) : Option Vmer := do
  let cells ← encodeCells byte_seq
  pure { vm with sequence := vm.sequence ++ cells }

/-- `Vmer::new`. -/
def Vmer.new (len : Nat) (byte_seq : List Nat) : Option Vmer :=
  Vmer.encode { k := len, sequence := [] } byte_seq

/-- `Vmer::from_literal`. -/
def Vmer.from_literal (s : List Char) : Option Vmer :=
  Vmer.new s.length (s.map Char.toNat)

/-- `impl BitXor for Vmer`: after the length assert and the cell-wise xor it
calls `Vmer::new(self.k, xor_sequence.as_slice())`, i.e. feeds the raw xor
bytes back through `encode` as if they were nucleotide characters. -/
def Vmer.bitxor (a rhs : Vmer) : Option Vmer :=
  if a.k = rhs.k then do
    let cells ← xorCells a.sequence 0 rhs.sequence
    Vmer.new a.k cells
  else none

/-! ## Specification-side helper definitions (proof vocabulary) -/

/-- A byte is a valid uppercase nucleotide ASCII code. -/
def validByte (b : Nat) : Prop := b = 65 ∨ b = 71 ∨ b = 67 ∨ b = 84

instance (b : Nat) : Decidable (validByte b) := by
  unfold validByte
  infer_instance

/-- A character is a valid uppercase nucleotide letter. -/
def validChar (c : Char) : Prop := c = 'A' ∨ c = 'G' ∨ c = 'C' ∨ c = 'T'

instance (c : Char) : Decidable (validChar c) := by
  unfold validChar
  infer_instance

/-- The 2-bit code of a valid nucleotide byte: A=00, G=01, C=10, T=11. -/
def byteCode (b : Nat) : Nat :=
  if b = 84 then 3 else if b = 65 then 0 else if b = 71 then 1 else 2

/-- The character a valid nucleotide byte decodes back to. -/
def byteChar (b : Nat) : Char := remChar (byteCode b)

/-- The value of the packed cell built from one chunk: the `i`-th byte's
2-bit code lands at bit offset `2*i`, i.e. a base-4 little-endian numeral. -/
def chunkVal (l : List Nat) : Nat :=
  l.foldr (fun b acc => byteCode b + 4 * acc) 0

/-- All cells produced by a successful `encode` of `byte_seq`. -/
def cellsOf (byte_seq : List Nat) : List Nat :=
  (chunks4 byte_seq).map chunkVal

/-- The first `n` 2-bit fields of a cell, as decoded characters. -/
def cellChars : Nat → Nat → List Char
  | _, 0 => []
  | v, n + 1 => remChar (v % 4) :: cellChars (v / 4) n

/-- Watson–Crick complement on characters. -/
def compChar (c : Char) : Char :=
  if c = 'A' then 'T' else if c = 'T' then 'A' else if c = 'G' then 'C' else 'G'

/-- Watson–Crick complement on nucleotide bytes. -/
def compByte (b : Nat) : Nat :=
  if b = 65 then 84 else if b = 84 then 65 else if b = 71 then 67 else 71

example : Kmer.from_literal ['A', 'G'] = some { k := 2, sequence := [4] } := by decide

example : (Kmer.from_literal ['A', 'G', 'C', 'T', 'A']).map Kmer.decode
    = some ['A', 'G', 'C', 'T', 'A'] := by decide

example : ((Kmer.from_literal ['A', 'G']).bind Kmer.reverse_complement).map Kmer.decode
    = some ['T', 'C', 'C'] := by decide

/-! ## Encode-side lemmas -/

lemma four_pow_eq (i : Nat) : (4 : Nat) ^ i = 2 ^ (i * 2) := by
  rw [mul_comm i 2, pow_mul]
  norm_num

lemma byteCode_lt (b : Nat) (h : validByte b) : byteCode b < 4 := by
  rcases h with rfl | rfl | rfl | rfl <;> decide

lemma nucVal_valid (i b : Nat) (h : validByte b) :
    nucVal i b = some (byteCode b * 4 ^ i) := by
  rcases h with rfl | rfl | rfl | rfl <;>
    simp [nucVal, byteCode, four_pow_eq, pow_succ] <;> ring

lemma encodeChunkAux_valid (l : List Nat) (h : ∀ b ∈ l, validByte b) (i : Nat) :
    encodeChunkAux i l = some (4 ^ i * chunkVal l) := by
  induction l generalizing i with
  | nil => simp [encodeChunkAux, chunkVal]
  | cons b rest ih =>
    have hb : validByte b := h b (List.mem_cons_self b rest)
    have hr : ∀ x ∈ rest, validByte x := fun x hx => h x (List.mem_cons_of_mem b hx)
    rw [encodeChunkAux, nucVal_valid i b hb, ih hr (i + 1)]
    simp only [Option.bind_eq_bind, Option.some_bind, chunkVal, List.foldr_cons]
    have : byteCode b * 4 ^ i + 4 ^ (i + 1) * List.foldr (fun b acc => byteCode b + 4 * acc) 0 rest
        = 4 ^ i * (byteCode b + 4 * List.foldr (fun b acc => byteCode b + 4 * acc) 0 rest) := by
      rw [pow_succ]
      ring
    rw [← this]
    rfl

lemma encodeChunk_valid (l : List Nat) (h : ∀ b ∈ l, validByte b) :
    encodeChunk l = some (chunkVal l) := by
  rw [encodeChunk, encodeChunkAux_valid l h 0, pow_zero, one_mul]

lemma chunkVal_lt (l : List Nat) (h : ∀ b ∈ l, validByte b) :
    chunkVal l < 4 ^ l.length := by
  induction l with
  | nil => simp [chunkVal]
  | cons b rest ih =>
    have hb : byteCode b < 4 := byteCode_lt b (h b (List.mem_cons_self b rest))
    have hr := ih (fun x hx => h x (List.mem_cons_of_mem b hx))
    simp only [chunkVal, List.foldr_cons, List.length_cons] at *
    have h4 : (4 : Nat) ^ (rest.length + 1) = 4 * 4 ^ rest.length := by
      rw [pow_succ]
      ring
    omega

lemma mapM_option_eq_map {α β : Type} (f : α → Option β) (g : α → β) (l : List α)
    (h : ∀ x ∈ l, f x = some (g x)) : l.mapM f = some (l.map g) := by
  induction l with
  | nil => rfl
  | cons a rest ih =>
    rw [List.mapM_cons, h a (List.mem_cons_self a rest),
      ih (fun x hx => h x (List.mem_cons_of_mem a hx))]
    rfl

lemma chunks4_mem {α : Type} (s : List α) (l : List α) (hl : l ∈ chunks4 s) :
    ∀ x ∈ l, x ∈ s := by
  induction s using chunks4.induct with
  | case1 => simp [chunks4] at hl
  | case2 a =>
    simp only [chunks4, List.mem_singleton] at hl
    subst hl
    simp
  | case3 a b =>
    simp only [chunks4, List.mem_singleton] at hl
    subst hl
    simp
  | case4 a b c =>
    simp only [chunks4, List.mem_singleton] at hl
    subst hl
    simp
  | case5 a b c d rest ih =>
    simp only [chunks4, List.mem_cons] at hl
    rcases hl with rfl | hl
    · intro x hx
      simp only [List.mem_cons] at hx ⊢
      tauto
    · intro x hx
      have := ih hl x hx
      simp only [List.mem_cons]
      tauto

lemma chunks4_len_le {α : Type} (s : List α) (l : List α) (hl : l ∈ chunks4 s) :
    l.length ≤ 4 := by
  induction s using chunks4.induct with
  | case1 => simp [chunks4] at hl
  | case2 a =>
    simp only [chunks4, List.mem_singleton] at hl
    subst hl
    simp
  | case3 a b =>
    simp only [chunks4, List.mem_singleton] at hl
    subst hl
    simp
  | case4 a b c =>
    simp only [chunks4, List.mem_singleton] at hl
    subst hl
    simp
  | case5 a b c d rest ih =>
    simp only [chunks4, List.mem_cons] at hl
    rcases hl with rfl | hl
    · simp
    · exact ih hl

lemma chunks4_length {α : Type} (s : List α) :
    (chunks4 s).length = (s.length + 3) / 4 := by
  induction s using chunks4.induct with
  | case1 => simp [chunks4]
  | case2 a => simp [chunks4]
  | case3 a b => simp [chunks4]
  | case4 a b c => simp [chunks4]
  | case5 a b c d rest ih =>
    simp only [chunks4, List.length_cons, ih]
    omega

lemma encodeCells_valid (s : List Nat) (h : ∀ b ∈ s, validByte b) :
    encodeCells s = some (cellsOf s) := by
  rw [encodeCells, cellsOf]
  exact mapM_option_eq_map encodeChunk chunkVal (chunks4 s)
    (fun l hl => encodeChunk_valid l (fun b hb => h b (chunks4_mem s l hl b hb)))

lemma cellsOf_lt (s : List Nat) (h : ∀ b ∈ s, validByte b) :
    ∀ v ∈ cellsOf s, v < 256 := by
  intro v hv
  rw [cellsOf, List.mem_map] at hv
  obtain ⟨l, hl, rfl⟩ := hv
  have h1 := chunkVal_lt l (fun b hb => h b (chunks4_mem s l hl b hb))
  have h2 : (4 : Nat) ^ l.length ≤ 4 ^ 4 :=
    Nat.pow_le_pow_right (by norm_num) (chunks4_len_le s l hl)
  omega

lemma cellsOf_length (s : List Nat) : (cellsOf s).length = (s.length + 3) / 4 := by
  rw [cellsOf, List.length_map, chunks4_length]

/-! ## Decode-side lemmas -/

lemma cellChars_chunkVal (l : List Nat) (h : ∀ b ∈ l, validByte b) :
    ∀ n, n ≤ l.length → cellChars (chunkVal l) n = (l.map byteChar).take n := by
  induction l with
  | nil =>
    intro n hn
    have hn0 : n = 0 := by simpa using hn
    subst hn0
    simp [cellChars]
  | cons b rest ih =>
    intro n hn
    match n with
    | 0 => simp [cellChars]
    | n + 1 =>
      have hb : byteCode b < 4 := byteCode_lt b (h b (List.mem_cons_self b rest))
      have hmod : (byteCode b + 4 * chunkVal rest) % 4 = byteCode b := by omega
      have hdiv : (byteCode b + 4 * chunkVal rest) / 4 = chunkVal rest := by omega
      have hcv : chunkVal (b :: rest) = byteCode b + 4 * chunkVal rest := by
        simp [chunkVal]
      rw [hcv, cellChars, hmod, hdiv,
        ih (fun x hx => h x (List.mem_cons_of_mem b hx)) n (by simpa using hn)]
      simp [byteChar]

lemma decodeCellLoop_eq (j : Nat) :
    ∀ v m k, decodeCellLoop v m k j
      = (cellChars v (min j (max 1 (k - m))), m + min j (max 1 (k - m))) := by
  induction j with
  | zero =>
    intro v m k
    simp [decodeCellLoop, cellChars]
  | succ j ih =>
    intro v m k
    rw [decodeCellLoop]
    by_cases hc : m + 1 ≥ k
    · have ht : min (j + 1) (max 1 (k - m)) = 1 := by omega
      rw [if_pos hc, ht]
      simp [cellChars]
    · have hk : m + 2 ≤ k := by omega
      rw [if_neg hc, ih (v / 4) (m + 1) k]
      have ht : min (j + 1) (max 1 (k - m)) = min j (max 1 (k - (m + 1))) + 1 := by
        omega
      rw [ht]
      have hm : m + (min j (max 1 (k - (m + 1))) + 1)
          = m + 1 + min j (max 1 (k - (m + 1))) := by omega
      rw [hm, cellChars]

lemma remChar_compl (r : Nat) (h : r < 4) :
    remChar (3 - r) = compChar (remChar r) := by
  interval_cases r <;> decide

lemma cellChars_compl (n : Nat) :
    ∀ m v, v < 4 ^ m → n ≤ m →
      cellChars (4 ^ m - 1 - v) n = (cellChars v n).map compChar := by
  induction n with
  | zero =>
    intro m v _ _
    simp [cellChars]
  | succ n ih =>
    intro m v hv hn
    match m with
    | m' + 1 =>
      have h4 : (4 : Nat) ^ (m' + 1) = 4 * 4 ^ m' := by
        rw [pow_succ]
        ring
      have hr : v % 4 < 4 := Nat.mod_lt v (by norm_num)
      have hq : v / 4 < 4 ^ m' := by omega
      have hmod : (4 ^ (m' + 1) - 1 - v) % 4 = 3 - v % 4 := by omega
      have hdiv : (4 ^ (m' + 1) - 1 - v) / 4 = 4 ^ m' - 1 - v / 4 := by omega
      rw [cellChars, cellChars, hmod, hdiv, remChar_compl (v % 4) hr,
        ih m' (v / 4) hq (by omega)]
      simp

lemma decodeCells_cellsOf (f : Nat → Nat) (g : Char → Char)
    (hf : ∀ v n, v < 256 → n ≤ 4 → cellChars (f v) n = (cellChars v n).map g) :
    ∀ (s : List Nat) (m : Nat), (∀ b ∈ s, validByte b) →
      decodeCells ((cellsOf s).map f) m (m + s.length)
        = s.map (fun b => g (byteChar b)) := by
  intro s
  induction s using chunks4.induct with
  | case1 =>
    intro m _
    simp [cellsOf, chunks4, decodeCells]
  | case2 a =>
    intro m h
    have hv : chunkVal [a] < 256 := by
      have := chunkVal_lt [a] h
      norm_num at this
      omega
    have hcc : cellChars (chunkVal [a]) 1 = [byteChar a] := by
      rw [cellChars_chunkVal [a] h 1 (by simp)]
      simp
    simp only [cellsOf, chunks4, List.map_cons, List.map_nil, decodeCells,
      List.length_cons, List.length_nil]
    rw [decodeCellLoop_eq]
    have ht : min 4 (max 1 (m + (0 + 1) - m)) = 1 := by omega
    rw [ht, hf (chunkVal [a]) 1 hv (by omega), hcc]
    simp
  | case3 a b =>
    intro m h
    have hv : chunkVal [a, b] < 256 := by
      have := chunkVal_lt [a, b] h
      norm_num at this
      omega
    have hcc : cellChars (chunkVal [a, b]) 2 = [byteChar a, byteChar b] := by
      rw [cellChars_chunkVal [a, b] h 2 (by simp)]
      simp
    simp only [cellsOf, chunks4, List.map_cons, List.map_nil, decodeCells,
      List.length_cons, List.length_nil]
    rw [decodeCellLoop_eq]
    have ht : min 4 (max 1 (m + (0 + 1 + 1) - m)) = 2 := by omega
    rw [ht, hf (chunkVal [a, b]) 2 hv (by omega), hcc]
    simp
  | case4 a b c =>
    intro m h
    have hv : chunkVal [a, b, c] < 256 := by
      have := chunkVal_lt [a, b, c] h
      norm_num at this
      omega
    have hcc : cellChars (chunkVal [a, b, c]) 3 = [byteChar a, byteChar b, byteChar c] := by
      rw [cellChars_chunkVal [a, b, c] h 3 (by simp)]
      simp
    simp only [cellsOf, chunks4, List.map_cons, List.map_nil, decodeCells,
      List.length_cons, List.length_nil]
    rw [decodeCellLoop_eq]
    have ht : min 4 (max 1 (m + (0 + 1 + 1 + 1) - m)) = 3 := by omega
    rw [ht, hf (chunkVal [a, b, c]) 3 hv (by omega), hcc]
    simp
  | case5 a b c d rest ih =>
    intro m h
    have hsub : ∀ x ∈ rest, validByte x := fun x hx => h x (by simp [hx])
    have habcd : ∀ x ∈ [a, b, c, d], validByte x := by
      intro x hx
      simp only [List.mem_cons, List.not_mem_nil, or_false] at hx
      rcases hx with rfl | rfl | rfl | rfl <;> exact h x (by simp)
    have hv : chunkVal [a, b, c, d] < 256 := by
      have := chunkVal_lt [a, b, c, d] habcd
      norm_num at this
      omega
    have hcc : cellChars (chunkVal [a, b, c, d]) 4
        = [byteChar a, byteChar b, byteChar c, byteChar d] := by
      rw [cellChars_chunkVal [a, b, c, d] habcd 4 (by simp)]
      simp
    have hcells : cellsOf (a :: b :: c :: d :: rest)
        = chunkVal [a, b, c, d] :: cellsOf rest := by
      simp [cellsOf, chunks4]
    have hk : m + (a :: b :: c :: d :: rest).length = m + 4 + rest.length := by
      simp only [List.length_cons]
      omega
    rw [hcells, List.map_cons, hk]
    simp only [decodeCells]
    rw [decodeCellLoop_eq]
    have ht : min 4 (max 1 (m + 4 + rest.length - m)) = 4 := by omega
    rw [ht, hf (chunkVal [a, b, c, d]) 4 hv (by omega), hcc]
    rw [ih (m + 4) hsub]
    simp

/-! ## Character/byte bridges and `from_literal` normal forms -/

lemma validByte_toNat (c : Char) (h : validChar c) : validByte c.toNat := by
  rcases h with rfl | rfl | rfl | rfl <;> decide

lemma byteChar_toNat (c : Char) (h : validChar c) : byteChar c.toNat = c := by
  rcases h with rfl | rfl | rfl | rfl <;> decide

lemma validChar_compChar (c : Char) (h : validChar c) : validChar (compChar c) := by
  rcases h with rfl | rfl | rfl | rfl <;> decide

lemma compChar_compChar (c : Char) (h : validChar c) : compChar (compChar c) = c := by
  rcases h with rfl | rfl | rfl | rfl <;> decide

lemma validBytes_of_validChars (s : List Char) (h : ∀ c ∈ s, validChar c) :
    ∀ b ∈ s.map Char.toNat, validByte b := by
  intro b hb
  rw [List.mem_map] at hb
  obtain ⟨c, hc, rfl⟩ := hb
  exact validByte_toNat c (h c hc)

lemma map_byteChar_toNat (s : List Char) (h : ∀ c ∈ s, validChar c) :
    (s.map Char.toNat).map byteChar = s := by
  rw [List.map_map]
  have : ∀ c ∈ s, (byteChar ∘ Char.toNat) c = id c := by
    intro c hc
    simp only [Function.comp_apply, id_eq]
    exact byteChar_toNat c (h c hc)
  rw [List.map_congr_left this, List.map_id]

lemma notU8_eq_compl (v : Nat) (hv : v < 256) : notU8 v = 4 ^ 4 - 1 - v := by
  unfold notU8
  omega

lemma decode_cellsOf (s : List Nat) (h : ∀ b ∈ s, validByte b) :
    decodeCells (cellsOf s) 0 s.length = s.map byteChar := by
  have := decodeCells_cellsOf (fun v => v) (fun c => c)
    (by intro v n _ _; simp) s 0 h
  simpa using this

lemma decode_not_cellsOf (s : List Nat) (h : ∀ b ∈ s, validByte b) :
    decodeCells ((cellsOf s).map notU8) 0 s.length
      = s.map (fun b => compChar (byteChar b)) := by
  have := decodeCells_cellsOf notU8 compChar
    (by
      intro v n hv hn
      rw [notU8_eq_compl v hv]
      exact cellChars_compl n 4 v (by norm_num; omega) hn) s 0 h
  simpa using this

lemma from_literal_eq (s : List Char) (h : ∀ c ∈ s, validChar c) :
    Kmer.from_literal s = some { k := s.length, sequence := cellsOf (s.map Char.toNat) } := by
  rw [Kmer.from_literal, Kmer.new, Kmer.encode,
    encodeCells_valid (s.map Char.toNat) (validBytes_of_validChars s h)]
  rfl

lemma decode_of_encoded (s : List Char) (h : ∀ c ∈ s, validChar c) :
    Kmer.decode { k := s.length, sequence := cellsOf (s.map Char.toNat) } = s := by
  rw [Kmer.decode]
  have hlen : s.length = (s.map Char.toNat).length := by simp
  calc decodeCells (cellsOf (s.map Char.toNat)) 0 s.length
      = decodeCells (cellsOf (s.map Char.toNat)) 0 (s.map Char.toNat).length := by
        rw [← hlen]
    _ = (s.map Char.toNat).map byteChar :=
        decode_cellsOf (s.map Char.toNat) (validBytes_of_validChars s h)
    _ = s := map_byteChar_toNat s h

lemma decode_of_not_encoded (s : List Char) (h : ∀ c ∈ s, validChar c) :
    Kmer.decode { k := s.length, sequence := (cellsOf (s.map Char.toNat)).map notU8 }
      = s.map compChar := by
  rw [Kmer.decode]
  have hlen : s.length = (s.map Char.toNat).length := by simp
  calc decodeCells ((cellsOf (s.map Char.toNat)).map notU8) 0 s.length
      = decodeCells ((cellsOf (s.map Char.toNat)).map notU8) 0 (s.map Char.toNat).length := by
        rw [← hlen]
    _ = (s.map Char.toNat).map (fun b => compChar (byteChar b)) :=
        decode_not_cellsOf (s.map Char.toNat) (validBytes_of_validChars s h)
    _ = s.map compChar := by
        rw [← List.comp_map]
        have : ∀ c ∈ s, ((fun b => compChar (byteChar b)) ∘ Char.toNat) c = compChar c := by
          intro c hc
          simp only [Function.comp_apply]
          rw [byteChar_toNat c (h c hc)]
        rw [List.map_congr_left this]

/-! ## Normal forms of the pure complement operations on encoded sequences -/

lemma notU8_notU8 (v : Nat) (hv : v < 256) : notU8 (notU8 v) = v := by
  unfold notU8
  omega

lemma decode_of_encoded' (s : List Char) (k : Nat) (h : ∀ c ∈ s, validChar c)
    (hk : k = s.length) :
    Kmer.decode { k := k, sequence := cellsOf (s.map Char.toNat) } = s := by
  subst hk
  exact decode_of_encoded s h

lemma decode_of_not_encoded' (s : List Char) (k : Nat) (h : ∀ c ∈ s, validChar c)
    (hk : k = s.length) :
    Kmer.decode { k := k, sequence := (cellsOf (s.map Char.toNat)).map notU8 }
      = s.map compChar := by
  subst hk
  exact decode_of_not_encoded s h

lemma new_eq (len : Nat) (s : List Char) (h : ∀ c ∈ s, validChar c) :
    Kmer.new len (s.map Char.toNat)
      = some { k := len, sequence := cellsOf (s.map Char.toNat) } := by
  rw [Kmer.new, Kmer.encode, encodeCells_valid (s.map Char.toNat) (validBytes_of_validChars s h)]
  rfl

lemma make_complement_eq (s : List Char) (k : Nat) (h : ∀ c ∈ s, validChar c)
    (hk : k = s.length) :
    Kmer.make_complement { k := k, sequence := cellsOf (s.map Char.toNat) }
      = some { k := k, sequence := (cellsOf (s.map Char.toNat)).map notU8 } := by
  subst hk
  rw [Kmer.make_complement]
  simp only [decode_of_encoded' s s.length h rfl]
  rw [new_eq s.length s h]
  rfl

lemma make_complement_not_eq (s : List Char) (k : Nat) (h : ∀ c ∈ s, validChar c)
    (hk : k = s.length) :
    Kmer.make_complement { k := k, sequence := (cellsOf (s.map Char.toNat)).map notU8 }
      = some { k := k, sequence := (cellsOf ((s.map compChar).map Char.toNat)).map notU8 } := by
  subst hk
  rw [Kmer.make_complement]
  simp only [decode_of_not_encoded' s s.length h rfl]
  rw [new_eq s.length (s.map compChar) (fun c hc => by
    rw [List.mem_map] at hc
    obtain ⟨c', hc', rfl⟩ := hc
    exact validChar_compChar c' (h c' hc'))]
  rfl

lemma make_reverse_complement_eq (s : List Char) (k : Nat) (h : ∀ c ∈ s, validChar c)
    (hk : k = s.length) :
    Kmer.make_reverse_complement { k := k, sequence := cellsOf (s.map Char.toNat) }
      = some { k := s.reverse.length,
               sequence := (cellsOf (s.reverse.map Char.toNat)).map notU8 } := by
  subst hk
  rw [Kmer.make_reverse_complement]
  simp only [decode_of_encoded' s s.length h rfl]
  rw [from_literal_eq s.reverse (fun c hc => h c (List.mem_reverse.mp hc))]
  rfl

lemma make_reverse_complement_not_eq (s : List Char) (k : Nat) (h : ∀ c ∈ s, validChar c)
    (hk : k = s.length) :
    Kmer.make_reverse_complement { k := k, sequence := (cellsOf (s.map Char.toNat)).map notU8 }
      = some { k := (s.map compChar).reverse.length,
               sequence := (cellsOf ((s.map compChar).reverse.map Char.toNat)).map notU8 } := by
  subst hk
  rw [Kmer.make_reverse_complement]
  simp only [decode_of_not_encoded' s s.length h rfl]
  rw [from_literal_eq (s.map compChar).reverse (fun c hc => by
    rw [List.mem_reverse, List.mem_map] at hc
    obtain ⟨c', hc', rfl⟩ := hc
    exact validChar_compChar c' (h c' hc'))]
  rfl

lemma map_compChar_compChar (s : List Char) (h : ∀ c ∈ s, validChar c) :
    (s.map compChar).map compChar = s := by
  rw [List.map_map]
  have : ∀ c ∈ s, (compChar ∘ compChar) c = id c := by
    intro c hc
    simp only [Function.comp_apply, id_eq]
    exact compChar_compChar c (h c hc)
  rw [List.map_congr_left this, List.map_id]

/-- Claim C1: for every string over the alphabet A,G,C,T of any length
(including length 0 and lengths not divisible by 4), decoding the packed
sequence produced by encoding it yields the string back. -/
theorem c1_round_trip (s : List Char) (h : ∀ c ∈ s, validChar c) :
    ∃ km, Kmer.from_literal s = some km ∧ km.decode = s :=
  ⟨_, from_literal_eq s h, decode_of_encoded s h⟩

/-- Witness for C1 at the concrete 5-character (non-multiple-of-4) input
`"AGCTA"`. -/
theorem c1_round_trip_witness :
    (∀ c ∈ ['A', 'G', 'C', 'T', 'A'], validChar c) ∧
    ∃ km, Kmer.from_literal ['A', 'G', 'C', 'T', 'A'] = some km ∧
      km.decode = ['A', 'G', 'C', 'T', 'A'] :=
  ⟨by decide, c1_round_trip ['A', 'G', 'C', 'T', 'A'] (by decide)⟩

/-- Claim C5, counterexample: with the derived structural equality, applying
reverse-complement twice to the encoding of `"A"` does not restore it — the
pure operation flips the padding bits of the partial final cell (yielding
cell `252` instead of `0`), and the in-place mutator grows the buffer. -/
theorem c5_counterexample :
    ((Kmer.from_literal ['A']).bind Kmer.make_reverse_complement).bind
        Kmer.make_reverse_complement ≠ Kmer.from_literal ['A'] ∧
    ((Kmer.from_literal ['A']).bind Kmer.reverse_complement).bind
        Kmer.reverse_complement ≠ Kmer.from_literal ['A'] := by
  decide

/-- Claim C5 (amended): for every valid string, applying the pure
`make_reverse_complement` twice yields a sequence with the original declared
length that decodes to the original string (equality at the public decoded
level; the raw final-cell padding bits may differ). -/
theorem c5_pure_rc_involution (s : List Char) (h : ∀ c ∈ s, validChar c) :
    ∃ km km2, Kmer.from_literal s = some km ∧
      km.make_reverse_complement.bind Kmer.make_reverse_complement = some km2 ∧
      km2.k = s.length ∧ km2.decode = s := by
  have hrev : ∀ c ∈ s.reverse, validChar c := fun c hc => h c (List.mem_reverse.mp hc)
  have hcomp : ∀ c ∈ s.map compChar, validChar c := by
    intro c hc
    rw [List.mem_map] at hc
    obtain ⟨c', hc', rfl⟩ := hc
    exact validChar_compChar c' (h c' hc')
  have ht : (s.reverse.map compChar).reverse = s.map compChar := by
    rw [List.map_reverse, List.reverse_reverse]
  refine ⟨_, { k := (s.map compChar).length,
               sequence := (cellsOf ((s.map compChar).map Char.toNat)).map notU8 },
    from_literal_eq s h, ?_, by simp, ?_⟩
  · rw [make_reverse_complement_eq s s.length h rfl, Option.some_bind,
      make_reverse_complement_not_eq s.reverse s.reverse.length hrev rfl, ht]
  · rw [decode_of_not_encoded' (s.map compChar) (s.map compChar).length hcomp rfl]
    exact map_compChar_compChar s h

/-- Witness for the amended C5 at the concrete input `"AGCTA"`. -/
theorem c5_pure_rc_involution_witness :
    (∀ c ∈ ['A', 'G', 'C', 'T', 'A'], validChar c) ∧
    ∃ km km2, Kmer.from_literal ['A', 'G', 'C', 'T', 'A'] = some km ∧
      km.make_reverse_complement.bind Kmer.make_reverse_complement = some km2 ∧
      km2.k = (['A', 'G', 'C', 'T', 'A'] : List Char).length ∧
      km2.decode = ['A', 'G', 'C', 'T', 'A'] :=
  ⟨by decide, c5_pure_rc_involution ['A', 'G', 'C', 'T', 'A'] (by decide)⟩

/-- Claim C8, counterexample: with the derived structural equality, applying
the pure `make_complement` twice to the encoding of `"A"` does not restore
it — the final `!` turns the zero padding bits into ones (cell `252`
instead of `0`). -/
theorem c8_counterexample :
    ((Kmer.from_literal ['A']).bind Kmer.make_complement).bind Kmer.make_complement
      ≠ Kmer.from_literal ['A'] := by
  decide

lemma complement_complement_encoded (s : List Char) (h : ∀ c ∈ s, validChar c) :
    Kmer.complement (Kmer.complement { k := s.length, sequence := cellsOf (s.map Char.toNat) })
      = { k := s.length, sequence := cellsOf (s.map Char.toNat) } := by
  simp only [Kmer.complement, List.map_map]
  have hpt : ∀ v ∈ cellsOf (s.map Char.toNat), (notU8 ∘ notU8) v = id v := by
    intro v hv
    simp only [Function.comp_apply, id_eq]
    exact notU8_notU8 v
      (cellsOf_lt (s.map Char.toNat) (validBytes_of_validChars s h) v hv)
  rw [List.map_congr_left hpt, List.map_id]

/-- Claim C8 (amended): for every valid string, the pure `make_complement`
applied twice yields a sequence with the original declared length that
decodes to the original string (the raw final-cell padding bits may
differ), and the in-place `complement` mutator applied twice restores the
struct exactly, each application leaving the declared length unchanged. -/
theorem c8_complement_involution (s : List Char) (h : ∀ c ∈ s, validChar c) :
    ∃ km km2, Kmer.from_literal s = some km ∧
      km.make_complement.bind Kmer.make_complement = some km2 ∧
      km2.k = s.length ∧ km2.decode = s ∧
      km.complement.complement = km ∧ km.complement.k = km.k := by
  have hcomp : ∀ c ∈ s.map compChar, validChar c := by
    intro c hc
    rw [List.mem_map] at hc
    obtain ⟨c', hc', rfl⟩ := hc
    exact validChar_compChar c' (h c' hc')
  refine ⟨_, { k := s.length,
               sequence := (cellsOf ((s.map compChar).map Char.toNat)).map notU8 },
    from_literal_eq s h, ?_, rfl, ?_, complement_complement_encoded s h, rfl⟩
  · rw [make_complement_eq s s.length h rfl, Option.some_bind,
      make_complement_not_eq s s.length h rfl]
  · rw [decode_of_not_encoded' (s.map compChar) s.length hcomp (by simp)]
    exact map_compChar_compChar s h

/-- Witness for the amended C8 at the concrete input `"AGCTA"`. -/
theorem c8_complement_involution_witness :
    (∀ c ∈ ['A', 'G', 'C', 'T', 'A'], validChar c) ∧
    ∃ km km2, Kmer.from_literal ['A', 'G', 'C', 'T', 'A'] = some km ∧
      km.make_complement.bind Kmer.make_complement = some km2 ∧
      km2.k = (['A', 'G', 'C', 'T', 'A'] : List Char).length ∧
      km2.decode = ['A', 'G', 'C', 'T', 'A'] ∧
      km.complement.complement = km ∧ km.complement.k = km.k :=
  ⟨by decide, c8_complement_involution ['A', 'G', 'C', 'T', 'A'] (by decide)⟩

/-- Claim C2: the pure `make_reverse_complement` of `"AG"` decodes to the
correct reverse complement `"CT"`, but the in-place `reverse_complement`
mutator — whose internal `encode` call appends to the existing buffer
instead of replacing it — leaves a sequence that decodes to `"TCC"`: the
two operations are not equivalent. -/
theorem c2_code_bug :
    ((Kmer.from_literal ['A', 'G']).bind Kmer.make_reverse_complement).map Kmer.decode
      = some ['C', 'T'] ∧
    ((Kmer.from_literal ['A', 'G']).bind Kmer.reverse_complement).map Kmer.decode
      = some ['T', 'C', 'C'] ∧
    ((Kmer.from_literal ['A', 'G']).bind Kmer.reverse_complement).map Kmer.k = some 2 := by
  decide

/-- Claim C3: `index` on the 3-symbol sequence `"AGC"` returns the stored
2-bit codes at positions `< 3`, but at `position == length` (3) it does
*not* fail — the guard `self.k < position` only rejects `position > k`, so
it silently returns the padding bits (code 0) — while at position 4 it
fails. -/
theorem c3_code_bug :
    (Kmer.from_literal ['A', 'G', 'C']).bind (fun km => km.index 0) = some 0 ∧
    (Kmer.from_literal ['A', 'G', 'C']).bind (fun km => km.index 1) = some 1 ∧
    (Kmer.from_literal ['A', 'G', 'C']).bind (fun km => km.index 2) = some 2 ∧
    (Kmer.from_literal ['A', 'G', 'C']).bind (fun km => km.index 3) = some 0 ∧
    (Kmer.from_literal ['A', 'G', 'C']).bind (fun km => km.index 4) = none := by
  decide

/-- Claim C4: encoding `"A"` satisfies the packing invariant (1 cell for
length 1), but the in-place `reverse_complement` mutator breaks it: the
result has declared length 1 and 2 cells, while `ceil(1/4) = 1`. -/
theorem c4_code_bug :
    (Kmer.from_literal ['A']).map (fun km => km.sequence.length) = some ((1 + 3) / 4) ∧
    (Kmer.from_literal ['A']).bind Kmer.reverse_complement
      = some { k := 1, sequence := [255, 255] } ∧
    ({ k := 1, sequence := [255, 255] } : Kmer).sequence.length
      ≠ (({ k := 1, sequence := [255, 255] } : Kmer).k + 3) / 4 := by
  decide

/-- Claim C6: encoding `"AXGT"` fails (the source panics at the invalid
character, modelled `none`); encoding the valid `"AGT"` succeeds. -/
theorem c6_code_bug :
    Kmer.from_literal ['A', 'X', 'G', 'T'] = none ∧
    Kmer.from_literal ['A', 'G', 'T'] = some { k := 3, sequence := [52] } := by
  decide

/-- Claim C7: the `Kmer` xor of equal-length sequences produces the cell-wise
xor (self-xor gives the all-zero cell) and fails on a length mismatch, but
the `Vmer` xor feeds its raw xor cells back through `encode` as if they were
nucleotide characters and faults even on `a ^ a`. -/
theorem c7_code_bug :
    (do
      let a ← Kmer.from_literal ['A', 'G']
      let b ← Kmer.from_literal ['A', 'G']
      a.bitxor b) = some { k := 2, sequence := [0] } ∧
    (do
      let a ← Vmer.from_literal ['A', 'G']
      let b ← Vmer.from_literal ['A', 'G']
      a.bitxor b) = none ∧
    (do
      let a ← Kmer.from_literal ['A', 'G']
      let b ← Kmer.from_literal ['A']
      a.bitxor b) = none := by
  decide

/-! ## Iterator lemmas (C9) -/

lemma index_some (km : Kmer) (p : Nat) (hinv : km.sequence.length = (km.k + 3) / 4)
    (hp : p < km.k) : ∃ v, km.index p = some v := by
  rw [Kmer.index, if_neg (by omega)]
  have hidx : p / 4 < km.sequence.length := by
    rw [hinv]
    omega
  rw [List.get?_eq_get hidx]
  exact ⟨_, rfl⟩

lemma iterCollect_run (km : Kmer) (hinv : km.sequence.length = (km.k + 3) / 4) :
    ∀ (n p nuc : Nat), p + n = km.k →
      ∃ items itF,
        iterCollect { kmer := km, position := p, nucleotide := nuc } (n + 1)
          = some (items, itF) ∧
        items.length = n ∧
        (∀ i, i < n → items.get? i = km.index (p + i)) ∧
        itF.kmer = km ∧ itF.position = km.k := by
  intro n
  induction n with
  | zero =>
    intro p nuc hp
    have hnext : KmerIter.next { kmer := km, position := p, nucleotide := nuc }
        = some (none, { kmer := km, position := p, nucleotide := nuc }) := by
      rw [KmerIter.next, if_pos (by simpa using hp)]
    refine ⟨[], { kmer := km, position := p, nucleotide := nuc }, ?_, rfl, by omega, rfl,
      by simpa using hp⟩
    simp only [iterCollect, hnext]
  | succ n ih =>
    intro p nuc hp
    have hplt : p < km.k := by omega
    obtain ⟨v, hv⟩ := index_some km p hinv hplt
    obtain ⟨items, itF, hcol, hlen, hget, hkm, hpos⟩ := ih (p + 1) v (by omega)
    have hnext : KmerIter.next { kmer := km, position := p, nucleotide := nuc }
        = some (some v, { kmer := km, position := p + 1, nucleotide := v }) := by
      rw [KmerIter.next, if_neg (by simpa using Nat.ne_of_lt hplt)]
      rw [show ({ kmer := km, position := p, nucleotide := nuc } : KmerIter).kmer.index p
        = km.index p from rfl, hv]
    refine ⟨v :: items, itF, ?_, by simp [hlen], ?_, hkm, hpos⟩
    · calc iterCollect { kmer := km, position := p, nucleotide := nuc } (n + 1 + 1)
          = (match KmerIter.next { kmer := km, position := p, nucleotide := nuc } with
             | none => none
             | some (none, it2) => some ([], it2)
             | some (some x, it2) =>
               match iterCollect it2 (n + 1) with
               | none => none
               | some (xs, it3) => some (x :: xs, it3)) := rfl
        _ = (match iterCollect { kmer := km, position := p + 1, nucleotide := v } (n + 1) with
             | none => none
             | some (xs, it3) => some (v :: xs, it3)) := by rw [hnext]
        _ = some (v :: items, itF) := by rw [hcol]
    · intro i hi
      match i with
      | 0 => simpa using hv.symm
      | i + 1 =>
        have := hget i (by omega)
        have harith : p + 1 + i = p + (i + 1) := by omega
        rw [harith] at this
        simpa using this

/-- Claim C9: for every valid string, iterating the encoded packed sequence
yields exactly `length` items, in position order, the `i`-th item equal to
`index(seq, i)`; after yielding them all, the iterator returns `None` and
keeps doing so. -/
theorem c9_iterator (s : List Char) (h : ∀ c ∈ s, validChar c) :
    ∃ km, Kmer.from_literal s = some km ∧
      ∃ items itF, iterCollect km.into_iter (s.length + 1) = some (items, itF) ∧
        items.length = s.length ∧
        (∀ i, i < s.length → items.get? i = km.index i) ∧
        itF.next = some (none, itF) := by
  refine ⟨_, from_literal_eq s h, ?_⟩
  have hinv : ({ k := s.length, sequence := cellsOf (s.map Char.toNat) } : Kmer).sequence.length
      = (({ k := s.length, sequence := cellsOf (s.map Char.toNat) } : Kmer).k + 3) / 4 := by
    simp [cellsOf_length]
  obtain ⟨items, itF, hcol, hlen, hget, hkm, hpos⟩ :=
    iterCollect_run { k := s.length, sequence := cellsOf (s.map Char.toNat) } hinv
      s.length 0 0 (by simp)
  refine ⟨items, itF, hcol, hlen, ?_, ?_⟩
  · intro i hi
    simpa using hget i hi
  · rw [KmerIter.next, if_pos (by rw [hpos, hkm])]

/-- Witness for C9 at the concrete input `"AGCTA"`. -/
theorem c9_iterator_witness :
    (∀ c ∈ ['A', 'G', 'C', 'T', 'A'], validChar c) ∧
    ∃ km, Kmer.from_literal ['A', 'G', 'C', 'T', 'A'] = some km ∧
      ∃ items itF,
        iterCollect km.into_iter ((['A', 'G', 'C', 'T', 'A'] : List Char).length + 1)
          = some (items, itF) ∧
        items.length = (['A', 'G', 'C', 'T', 'A'] : List Char).length ∧
        (∀ i, i < (['A', 'G', 'C', 'T', 'A'] : List Char).length → items.get? i = km.index i) ∧
        itF.next = some (none, itF) :=
  ⟨by decide, c9_iterator ['A', 'G', 'C', 'T', 'A'] (by decide)⟩

/-! ## Final-cell padding lemmas (C10) -/

lemma getLast?_map_eq {α β : Type} (f : α → β) (l : List α) :
    (l.map f).getLast? = l.getLast?.map f := by
  induction l with
  | nil => rfl
  | cons a rest ih =>
    match rest with
    | [] => rfl
    | b :: rest' =>
      rw [List.map_cons, List.map_cons, List.getLast?_cons_cons,
        List.getLast?_cons_cons, ← List.map_cons]
      exact ih

lemma chunks4_ne_nil {α : Type} (s : List α) (hs : s ≠ []) : chunks4 s ≠ [] := by
  induction s using chunks4.induct with
  | case1 => exact absurd rfl hs
  | case2 a => simp [chunks4]
  | case3 a b => simp [chunks4]
  | case4 a b c => simp [chunks4]
  | case5 a b c d rest ih => simp [chunks4]

lemma chunks4_last_partial {α : Type} (s : List α) :
    s.length % 4 ≠ 0 →
    ∃ l, (chunks4 s).getLast? = some l ∧ l.length = s.length % 4 ∧ ∀ x ∈ l, x ∈ s := by
  induction s using chunks4.induct with
  | case1 => intro hmod; simp at hmod
  | case2 a =>
    intro _
    exact ⟨[a], by simp [chunks4], by simp, by simp⟩
  | case3 a b =>
    intro _
    refine ⟨[a, b], by simp [chunks4], by simp, ?_⟩
    intro x hx
    simp only [List.mem_cons, List.not_mem_nil, or_false] at hx ⊢
    tauto
  | case4 a b c =>
    intro _
    refine ⟨[a, b, c], by simp [chunks4], by simp, ?_⟩
    intro x hx
    simp only [List.mem_cons, List.not_mem_nil, or_false] at hx ⊢
    tauto
  | case5 a b c d rest ih =>
    intro hmod
    have hmod' : rest.length % 4 ≠ 0 := by
      simp only [List.length_cons] at hmod
      omega
    obtain ⟨l, hl, hlen, hmem⟩ := ih hmod'
    have hne : rest ≠ [] := by
      intro hr
      subst hr
      simp at hmod'
    obtain ⟨y, ys, hys⟩ := List.exists_cons_of_ne_nil (chunks4_ne_nil rest hne)
    refine ⟨l, ?_, by simp only [List.length_cons]; omega, ?_⟩
    · rw [show chunks4 (a :: b :: c :: d :: rest) = [a, b, c, d] :: chunks4 rest from rfl,
        hys, List.getLast?_cons_cons, ← hys]
      exact hl
    · intro x hx
      have := hmem x hx
      simp only [List.mem_cons]
      tauto

/-- Claim C10: for a valid string whose length is not a multiple of 4, the
final cell of the encoding keeps its unused high bits zero (every padding
position holds code 0, the code of A), so the bit-extraction formula past
the declared length returns 0. -/
theorem c10_padding_zero (s : List Char) (h : ∀ c ∈ s, validChar c)
    (hmod : s.length % 4 ≠ 0) :
    ∃ km, Kmer.from_literal s = some km ∧
      ∃ v, km.sequence.getLast? = some v ∧ v < 4 ^ (s.length % 4) ∧
        ∀ j, s.length % 4 ≤ j → j < 4 → (v >>> (2 * j)) &&& 3 = 0 := by
  refine ⟨_, from_literal_eq s h, ?_⟩
  obtain ⟨l, hl, hlen, hmem⟩ := chunks4_last_partial (s.map Char.toNat) (by simpa using hmod)
  have hlen' : l.length = s.length % 4 := by simpa using hlen
  have hvlt : chunkVal l < 4 ^ (s.length % 4) := by
    rw [← hlen']
    exact chunkVal_lt l (fun b hb => validBytes_of_validChars s h b (hmem b hb))
  refine ⟨chunkVal l, ?_, hvlt, ?_⟩
  · show (cellsOf (s.map Char.toNat)).getLast? = some (chunkVal l)
    rw [cellsOf, getLast?_map_eq, hl]
    rfl
  · intro j hj hj4
    have hjlt : chunkVal l < 4 ^ j :=
      lt_of_lt_of_le hvlt (Nat.pow_le_pow_right (by norm_num) hj)
    have hshift : chunkVal l >>> (2 * j) = 0 := by
      rw [Nat.shiftRight_eq_div_pow]
      apply Nat.div_eq_of_lt
      calc chunkVal l < 4 ^ j := hjlt
        _ = 2 ^ (2 * j) := by rw [mul_comm 2 j, ← four_pow_eq]
    rw [hshift]
    rfl

/-- Witness for C10 at the concrete input `"AGCTA"` (length 5). -/
theorem c10_padding_zero_witness :
    (∀ c ∈ ['A', 'G', 'C', 'T', 'A'], validChar c) ∧
    (['A', 'G', 'C', 'T', 'A'] : List Char).length % 4 ≠ 0 ∧
    ∃ km, Kmer.from_literal ['A', 'G', 'C', 'T', 'A'] = some km ∧
      ∃ v, km.sequence.getLast? = some v ∧
        v < 4 ^ ((['A', 'G', 'C', 'T', 'A'] : List Char).length % 4) ∧
        ∀ j, (['A', 'G', 'C', 'T', 'A'] : List Char).length % 4 ≤ j → j < 4 →
          (v >>> (2 * j)) &&& 3 = 0 :=
  ⟨by decide, by decide, c10_padding_zero ['A', 'G', 'C', 'T', 'A'] (by decide) (by decide)⟩
